import Mathlib

/-!
Verification of the EXEgesis Haswell simulator wiring (`src/llvm_sim/x86/haswell.cc`)
and the itinerary tool driver (`src/exegesis/tools/compute_itineraries.cc`).

The two source files construct the simulator's component/buffer graph and the
CLI driver.  Definitions below are shallow embeddings of those files; component
behaviours whose implementation files are not part of this repository snapshot
are modelled from the specification and marked as such in their doc comments.
-/

namespace Exegesis

/-! ## Data model: buffers and components of `CreateHaswellSimulator` -/

/-- `std::numeric_limits<size_t>::max()`, the `kInfiniteCapacity` sentinel
from `haswell.cc` line 34. -/
def kInfiniteCapacity : Nat := 2 ^ 64 - 1

/-- Identifiers for the buffer objects created in `CreateHaswellSimulator`.
`PortBuf i` is the `i`-th element of the `Ports` vector. -/
inductive BufferId
  | FetchedInstructionsLink
  | InstructionQueue
  | InstructionDecodeQueue
  | PortBuf (i : Nat)
  | RenamerToROBLink
  | UopsToRetireLink
  | RetiredUopsLink
  | ExecDepsTracker
  | ExecutedWritebackLink
  deriving DecidableEq, Repr

/-- One `llvm::MCProcResourceDesc` as read by the port-creation loop:
its `NumUnits` and whether `SubUnitsIdxBegin` is non-null. -/
structure ProcResourceDesc where
  NumUnits : Nat
  hasSubUnits : Bool
  deriving DecidableEq, Repr

/-- The body of the port-creation loop for one `ProcResIdx`: a port is created
exactly when the resource exists and has no sub-units, with the resource's
`NumUnits` as the port's unit count. -/
def portOfResource (resources : List ProcResourceDesc) (i : Nat) : Option (Nat × Nat) :=
  match resources[i]? with
  | some r => if r.hasSubUnits then none else some (i, r.NumUnits)
  | none => none

/-- The port-creation loop of `CreateHaswellSimulator` (haswell.cc lines 49-72):
for each `ProcResIdx` from 1 below `getNumProcResourceKinds()`, if the resource
has no sub-units, one `DispatchPort` with that resource's `NumUnits` is created.
Returns the list of `(resource index, unit count)` pairs, in creation order. -/
def createPorts (resources : List ProcResourceDesc) : List (Nat × Nat) :=
  ((List.range resources.length).drop 1).filterMap (portOfResource resources)

/-- The kinds of component added by `CreateHaswellSimulator`, in the source's
naming.  `SimplifiedExecutionUnits p` is the execution-unit component attached
to port `p`. -/
inductive ComponentKind
  | Fetcher
  | InstructionParser
  | InstructionDecoder
  | RegisterRenamer
  | ReorderBuffer
  | SimplifiedExecutionUnits (port : Nat)
  | Retirer
  deriving DecidableEq, Repr

/-- The components, in the order `CreateHaswellSimulator` calls `AddComponent`
(haswell.cc lines 92-122), when `numPorts` dispatch ports were created. -/
def haswellComponents (numPorts : Nat) : List ComponentKind :=
  [ComponentKind.Fetcher, ComponentKind.InstructionParser,
   ComponentKind.InstructionDecoder, ComponentKind.RegisterRenamer,
   ComponentKind.ReorderBuffer]
  ++ (List.range numPorts).map ComponentKind.SimplifiedExecutionUnits
  ++ [ComponentKind.Retirer]

/-- The buffers, in the order `CreateHaswellSimulator` calls `AddBuffer`
(haswell.cc lines 125-136). -/
def haswellBuffers (numPorts : Nat) : List BufferId :=
  [BufferId.FetchedInstructionsLink, BufferId.InstructionQueue,
   BufferId.InstructionDecodeQueue]
  ++ (List.range numPorts).map BufferId.PortBuf
  ++ [BufferId.RenamerToROBLink, BufferId.UopsToRetireLink,
      BufferId.ExecutedWritebackLink, BufferId.ExecDepsTracker,
      BufferId.RetiredUopsLink]

/-- The constructor arguments of the `ReorderBuffer` component as wired in
`CreateHaswellSimulator` (haswell.cc lines 107-111), by buffer identity. -/
structure ReorderBufferWiring where
  renamedUopSource : BufferId
  depsSink : BufferId
  writebackSource : BufferId
  retiredUopsSource : BufferId
  depsSource : BufferId
  portSinks : List BufferId
  uopsToRetireSink : BufferId
  deriving Repr

/-- The actual wiring from the source: both dependency-buffer arguments are the
single `ExecDepsTracker` object. -/
def haswellROBWiring (numPorts : Nat) : ReorderBufferWiring where
  renamedUopSource := BufferId.RenamerToROBLink
  depsSink := BufferId.ExecDepsTracker
  writebackSource := BufferId.ExecutedWritebackLink
  retiredUopsSource := BufferId.RetiredUopsLink
  depsSource := BufferId.ExecDepsTracker
  portSinks := (List.range numPorts).map BufferId.PortBuf
  uopsToRetireSink := BufferId.UopsToRetireLink

/-- `ReorderBuffer::Config{/*NumROBEntries=*/192}` from haswell.cc line 108. -/
structure ReorderBufferConfig where
  NumROBEntries : Nat
  deriving Repr

def haswellROBConfig : ReorderBufferConfig := ⟨192⟩

/-- `Retirer<ROBUopId>::Config{}` from haswell.cc line 121: the config struct
carries no field, in particular no retire-width field. -/
structure RetirerConfig where
  deriving Repr

def haswellRetirerConfig : RetirerConfig := ⟨⟩

/-- Capacity of `UopsToRetireLink` (haswell.cc line 80). -/
def uopsToRetireLinkCapacity : Nat := 3

/-- Capacity of `ExecutedWritebackLink` (haswell.cc lines 85-86). -/
def executedWritebackLinkCapacity : Nat := kInfiniteCapacity

/-- Capacity of `RetiredUopsLink` (haswell.cc lines 81-82). -/
def retiredUopsLinkCapacity : Nat := kInfiniteCapacity

/-! ## Modelled buffer and driver semantics

The component implementation files (`llvm_sim/components/*.h`) are not part of
this repository snapshot; their behaviour is modelled from the specification. -/

/-- Modelled from the spec: a `LinkBuffer` is a typed channel with explicit
capacity; a push is rejected when the buffer is at capacity, and "a buffer with
infinite capacity never rejects a push" (spec §4.1), the sentinel being
`kInfiniteCapacity`. -/
structure LinkBuffer (α : Type) where
  capacity : Nat
  contents : List α

/-- Modelled from the spec: push appends at the back (FIFO order preserved)
and fails exactly when a finite-capacity buffer is full. -/
def LinkBuffer.push {α : Type} (b : LinkBuffer α) (x : α) : Option (LinkBuffer α) :=
  if b.capacity = kInfiniteCapacity ∨ b.contents.length < b.capacity then
    some ⟨b.capacity, b.contents ++ [x]⟩
  else
    none

/-- Modelled from the spec: the Simulator "steps every component exactly once
in the fixed topological order" of addition (spec §4.9); `stepTrace` runs one
cycle of the driver loop over an abstract per-component transition and records
the visit order. -/
def stepTrace {σ : Type} (step : ComponentKind → σ → σ)
    (comps : List ComponentKind) (s : σ) : σ × List ComponentKind :=
  comps.foldl (fun p c => (step c p.1, p.2 ++ [c])) (s, [])

/-! ## `compute_itineraries.cc`: the itinerary tool driver -/

/-- An `InstructionProto`, as far as the tool's filtering step inspects it. -/
structure InstructionProto where
  llvm_mnemonic : String
  deriving DecidableEq, Repr

/-- An `ItineraryProto`, as far as the tool's filtering step inspects it. -/
structure ItineraryProto where
  llvm_mnemonic : String
  deriving DecidableEq, Repr

/-- ASCII whitespace as used by `absl` string handling. -/
def isAsciiWhitespace (c : Char) : Bool :=
  c = ' ' || c = '\t' || c = '\n' || c = '\x0b' || c = '\x0c' || c = '\r'

/-- `absl::StrSplit(FLAGS_exegesis_only_llvm_mnemonics, ',', absl::SkipWhitespace())`
(compute_itineraries.cc lines 56-57): split on commas and drop the pieces that
are empty or consist only of whitespace. -/
def splitMnemonics (flag : String) : List String :=
  (flag.splitOn ",").filter fun p => !(p.toList.all isAsciiWhitespace)

/-- The filtering step of `exegesis::Main()` (compute_itineraries.cc lines
55-66): when the mnemonic flag is non-empty, `RemoveIf` removes every
instruction and every itinerary whose `llvm_mnemonic` is not in the split set;
when the flag is empty, nothing is removed. -/
def applyMnemonicFilter (flag : String) (instrs : List InstructionProto)
    (itins : List ItineraryProto) :
    List InstructionProto × List ItineraryProto :=
  if flag.isEmpty then
    (instrs, itins)
  else
    let mnemonics := splitMnemonics flag
    (instrs.filter fun i => mnemonics.contains i.llvm_mnemonic,
     itins.filter fun t => mnemonics.contains t.llvm_mnemonic)

/-- The tool's command-line flags, after `ParseCommandLineFlags`. -/
structure ToolFlags where
  exegesis_only_llvm_mnemonics : String
  exegesis_output_itineraries : String
  exegesis_pin_to_core : Int
  deriving Repr

/-- Observable side effects of the tool, in program order. -/
inductive ToolEvent
  | pinCore (core : Int)
  | loadMicroArchData
  | computeItins
  | writeOutput (path : String)
  deriving DecidableEq, Repr

/-- Exit behaviour of the tool process. -/
inductive ToolOutcome
  | fatalCheckFailure
  | ok
  deriving DecidableEq, Repr

/-- Effect trace of `exegesis::Main()` (compute_itineraries.cc lines 44-70):
pin the core, load microarchitecture data, compute itineraries, write the
output file. -/
def toolMainEvents (f : ToolFlags) : List ToolEvent :=
  [ToolEvent.pinCore f.exegesis_pin_to_core,
   ToolEvent.loadMicroArchData,
   ToolEvent.computeItins,
   ToolEvent.writeOutput f.exegesis_output_itineraries]

/-- `main` (compute_itineraries.cc lines 74-80) after flag parsing:
`CHECK(!FLAGS_exegesis_output_itineraries.empty())` aborts fatally before
`exegesis::Main()` performs any effect. -/
def toolMain (f : ToolFlags) : ToolOutcome × List ToolEvent :=
  if f.exegesis_output_itineraries.isEmpty then
    (ToolOutcome.fatalCheckFailure, [])
  else
    (ToolOutcome.ok, toolMainEvents f)

/-! ## Modelled reorder-buffer retirement pipeline (spec §4.6 phase 3, §4.8) -/

/-- One in-flight micro-op tracked by the modelled reorder buffer: its
program-order position and whether its execution has completed. -/
structure RobEntry where
  idx : Nat
  completed : Bool
  deriving DecidableEq, Repr

/-- Modelled from the spec (§4.6 phase 3): the writeback phase marks as
completed the entries whose completions arrived on the writeback channel this
cycle (`done` is the list of completing program positions). -/
def markCompleted (rob : List RobEntry) (done : List Nat) : List RobEntry :=
  rob.map fun e => { e with completed := e.completed || done.contains e.idx }

/-- State of the modelled retirement pipeline: the ROB entries in program
order, the ready-to-retire channel contents, the retirement log
(program position, retirement cycle) and the clock. -/
structure RetireState where
  rob : List RobEntry
  chan : List Nat
  retired : List (Nat × Nat)
  cycle : Nat
  deriving DecidableEq, Repr

/-- Modelled from the spec (§4.6 phase 3): the number of entries moved to the
ready-to-retire channel in one cycle — a prefix of the longest completed
program-order prefix, bounded by the channel's free room. -/
def eligibleCount (cap : Nat) (s : RetireState) (done : List Nat) : Nat :=
  min (cap - s.chan.length)
    ((markCompleted s.rob done).takeWhile (fun e => e.completed)).length

/-- Modelled from the spec (§4.6 phase 3 and §4.8): one simulated cycle of the
retirement pipeline.  The ReorderBuffer consumes the writeback completions
`done` and pushes the completed program-order prefix onto the ready-to-retire
channel, bounded by the channel capacity `cap`; the Retirer (whose config has
no width field) then pops every entry of the channel and records its
retirement cycle. -/
def retireCycleStep (cap : Nat) (done : List Nat) (s : RetireState) : RetireState :=
  let rob1 := markCompleted s.rob done
  let k := eligibleCount cap s done
  let chan1 := s.chan ++ (rob1.take k).map RobEntry.idx
  { rob := rob1.drop k
    chan := []
    retired := s.retired ++ chan1.map fun i => (i, s.cycle)
    cycle := s.cycle + 1 }

/-- Run the modelled retirement pipeline over a list of per-cycle writeback
completion inputs. -/
def retireRun (cap : Nat) (inputs : List (List Nat)) (s : RetireState) : RetireState :=
  inputs.foldl (fun s d => retireCycleStep cap d s) s

/-- Initial state: `n` allocated entries in program order, none completed. -/
def initRetireState (n : Nat) : RetireState where
  rob := (List.range n).map fun i => { idx := i, completed := false }
  chan := []
  retired := []
  cycle := 0

/-! ## Modelled ROB allocation ring (spec §3, §4.6 phase 1) -/

/-- Modelled from the spec: ROB allocation state.  `entries` holds, oldest
first, the program positions of allocated, not-yet-retired uops; `nextAlloc`
is the program position the next allocated uop will receive. -/
structure RobRing where
  entries : List Nat
  nextAlloc : Nat
  deriving DecidableEq, Repr

/-- Modelled from the spec: the allocate phase accepts incoming renamed uops
"while free ROB capacity remains"; at capacity nothing is accepted, which
stalls the upstream RegisterRenamer. -/
def RobRing.allocate (cap : Nat) (s : RobRing) (incoming : Nat) : RobRing :=
  let accepted := min incoming (cap - s.entries.length)
  { entries := s.entries ++ (List.range accepted).map (s.nextAlloc + ·)
    nextAlloc := s.nextAlloc + accepted }

/-- Modelled from the spec: retirement releases the `k` oldest entries, in
FIFO order. -/
def RobRing.retire (s : RobRing) (k : Nat) : RobRing :=
  { s with entries := s.entries.drop k }

/-- Run the allocation ring over per-cycle (incoming, retired) counts,
starting empty. -/
def robRun (cap : Nat) (ops : List (Nat × Nat)) : RobRing :=
  ops.foldl (fun s op => (RobRing.allocate cap s op.1).retire op.2) ⟨[], 0⟩

/-! ## Modelled issue policy (spec §4.6 phase 2) -/

/-- Modelled from the spec: `IssuePolicy::LeastLoaded` — among candidate
(free capacity, program-order position) pairs, prefer the one with the most
free capacity; when that comparison is exactly tied, prefer the lower
(earlier) program-order position. -/
def leastLoadedStep (best : Option (Nat × Nat)) (c : Nat × Nat) : Option (Nat × Nat) :=
  match best with
  | none => some c
  | some b => if b.1 < c.1 ∨ (b.1 = c.1 ∧ c.2 < b.2) then some c else some b

def leastLoadedPick (cands : List (Nat × Nat)) : Option (Nat × Nat) :=
  cands.foldl leastLoadedStep none

/-- Invariant of the modelled ROB allocation ring: occupancy never exceeds the
capacity and the live entries form the contiguous block of the most recently
allocated, not yet retired program positions, oldest first. -/
def RobInv (cap : Nat) (s : RobRing) : Prop :=
  s.entries.length ≤ cap ∧
  ∃ len, len ≤ s.nextAlloc ∧
    s.entries = List.range' (s.nextAlloc - len) len

/-- Invariant of the modelled retirement pipeline: the channel is drained at
cycle boundaries, ROB entries are in strictly increasing program order, the
retirement log is monotone (an older instruction never retires on a later
cycle than a younger one), logged cycles precede the clock, and every logged
entry is older than everything still in the ROB. -/
def RetireInv (s : RetireState) : Prop :=
  s.chan = [] ∧
  s.rob.Pairwise (fun a b => a.idx < b.idx) ∧
  (∀ p ∈ s.retired, ∀ q ∈ s.retired, p.1 < q.1 → p.2 ≤ q.2) ∧
  (∀ p ∈ s.retired, p.2 < s.cycle) ∧
  (∀ p ∈ s.retired, ∀ e ∈ s.rob, p.1 < e.idx)

/-! ## Helper lemmas -/

lemma stepTrace_foldl {σ : Type} (step : ComponentKind → σ → σ) :
    ∀ (comps : List ComponentKind) (s : σ) (acc : List ComponentKind),
      (comps.foldl (fun p c => (step c p.1, p.2 ++ [c])) (s, acc)).2 = acc ++ comps := by
  intro comps
  induction comps with
  | nil => intro s acc; simp
  | cons c cs ih => intro s acc; simpa using ih (step c s) (acc ++ [c])

lemma execUnits_injective : Function.Injective ComponentKind.SimplifiedExecutionUnits := by
  intro a b h
  injection h

lemma haswellComponents_nodup (n : Nat) : (haswellComponents n).Nodup := by
  have hmap : ((List.range n).map ComponentKind.SimplifiedExecutionUnits).Nodup :=
    (List.nodup_range n).map execUnits_injective
  refine List.Nodup.append (List.Nodup.append (by decide) hmap ?_) (by simp) ?_
  · intro c hc hc'
    simp only [List.mem_map, List.mem_range] at hc'
    obtain ⟨p, -, hp⟩ := hc'
    fin_cases hc <;> simp at hp
  · intro c hc hc'
    simp only [List.mem_singleton] at hc'
    subst hc'
    simp only [List.mem_append, List.mem_map, List.mem_range] at hc
    rcases hc with h | ⟨p, -, hp⟩
    · simp at h
    · simp at hp

lemma mem_drop_one_range {n a : Nat} : a ∈ (List.range n).drop 1 ↔ 1 ≤ a ∧ a < n := by
  cases n with
  | zero => simp
  | succ m =>
    rw [List.range_succ_eq_map]
    simp only [List.drop_succ_cons, List.drop_zero, List.mem_map, List.mem_range]
    constructor
    · rintro ⟨b, hb, rfl⟩
      omega
    · rintro ⟨h1, h2⟩
      exact ⟨a - 1, by omega, by omega⟩

lemma nodup_drop_one_range (n : Nat) : ((List.range n).drop 1).Nodup :=
  (List.drop_sublist 1 (List.range n)).nodup (List.nodup_range n)

lemma portOfResource_eq_some {resources : List ProcResourceDesc} {a : Nat}
    {b : Nat × Nat} :
    portOfResource resources a = some b ↔
      ∃ r, resources[a]? = some r ∧ r.hasSubUnits = false ∧ b = (a, r.NumUnits) := by
  rcases hr : resources[a]? with _ | r
  · simp [portOfResource, hr]
  · by_cases hs : r.hasSubUnits
    · simp [portOfResource, hr, hs]
    · simp only [portOfResource, hr]
      rw [if_neg hs]
      simp only [Option.some.injEq]
      constructor
      · rintro rfl
        exact ⟨r, rfl, by simpa using hs, rfl⟩
      · rintro ⟨r', hr', hs', rfl⟩
        obtain rfl : r = r' := by simpa using hr'
        rfl

lemma mem_createPorts {resources : List ProcResourceDesc} {i c : Nat} :
    (i, c) ∈ createPorts resources ↔
      1 ≤ i ∧ ∃ r, resources[i]? = some r ∧ r.hasSubUnits = false ∧
        c = r.NumUnits := by
  simp only [createPorts, List.mem_filterMap]
  constructor
  · rintro ⟨a, ha, hf⟩
    obtain ⟨r, hr, hs, hb⟩ := portOfResource_eq_some.mp hf
    obtain ⟨rfl, rfl⟩ : a = i ∧ r.NumUnits = c := by
      simpa [Prod.ext_iff] using hb.symm
    exact ⟨(mem_drop_one_range.mp ha).1, r, hr, hs, rfl⟩
  · rintro ⟨hi, r, hr, hs, rfl⟩
    have hlt : i < resources.length := by
      have := List.getElem?_eq_some.mp hr
      exact this.1
    exact ⟨i, mem_drop_one_range.mpr ⟨hi, hlt⟩,
      portOfResource_eq_some.mpr ⟨r, hr, hs, rfl⟩⟩

lemma length_filter_eq_one_of_nodup {α : Type} [DecidableEq α] {l : List α}
    {a : α} (h : l.Nodup) (ha : a ∈ l) :
    (l.filter fun x => x = a).length = 1 := by
  induction l with
  | nil => cases ha
  | cons b l ih =>
    have hns := List.nodup_cons.mp h
    rcases List.mem_cons.mp ha with rfl | ha'
    · have hnil : l.filter (fun x => x = a) = [] := by
        rw [List.filter_eq_nil_iff]
        intro x hx
        simp only [decide_eq_true_eq]
        rintro rfl
        exact hns.1 hx
      simp [List.filter_cons, hnil]
    · have hba : b ≠ a := fun hb => hns.1 (hb ▸ ha')
      simp [List.filter_cons, hba, ih hns.2 ha']

lemma createPorts_nodup (resources : List ProcResourceDesc) :
    (createPorts resources).Nodup := by
  refine List.Nodup.filterMap ?_ (nodup_drop_one_range resources.length)
  intro a a' b hb hb'
  obtain ⟨r, -, -, rfl⟩ := portOfResource_eq_some.mp hb
  obtain ⟨r', -, -, h⟩ := portOfResource_eq_some.mp hb'
  exact congrArg Prod.fst h

lemma drop_range'_eq (s n k : Nat) :
    (List.range' s n).drop k = List.range' (s + k) (n - k) := by
  by_cases hk : k ≤ n
  · have happ : List.range' s k ++ List.range' (s + k) (n - k) =
        List.range' s n := by
      rw [List.range'_append_1]
      congr 1
      omega
    rw [← happ, List.drop_left' (by simp)]
  · rw [List.drop_eq_nil_of_le (by simp; omega)]
    have h0 : n - k = 0 := by omega
    rw [h0, List.range'_zero]

lemma range'_block_append (a len acc : Nat) (hlen : len ≤ a) :
    List.range' (a - len) len ++ List.range' a acc =
      List.range' ((a + acc) - (len + acc)) (len + acc) := by
  have h1 : (a + acc) - (len + acc) = a - len := by omega
  have h2 : a - len + len = a := by omega
  calc List.range' (a - len) len ++ List.range' a acc
      = List.range' (a - len) len ++ List.range' (a - len + len) acc := by
        rw [h2]
    _ = List.range' (a - len) (acc + len) := List.range'_append_1 _ _ _
    _ = List.range' ((a + acc) - (len + acc)) (len + acc) := by
        rw [Nat.add_comm acc len, h1]

lemma robInv_allocate {cap : Nat} {s : RobRing} (inc : Nat) (h : RobInv cap s) :
    RobInv cap (RobRing.allocate cap s inc) := by
  obtain ⟨h1, len, hlen, h3⟩ := h
  have hlen_eq : s.entries.length = len := by rw [h3]; simp
  unfold RobRing.allocate
  set acc := min inc (cap - s.entries.length) with hacc
  have haccle : acc ≤ cap - s.entries.length := Nat.min_le_right _ _
  refine ⟨?_, len + acc, ?_, ?_⟩
  · simp only [List.length_append, List.length_map, List.length_range]
    omega
  · show len + acc ≤ s.nextAlloc + acc
    omega
  · show s.entries ++ (List.range acc).map (s.nextAlloc + ·) =
      List.range' (s.nextAlloc + acc - (len + acc)) (len + acc)
    have hmap : (List.range acc).map (s.nextAlloc + ·) =
        List.range' s.nextAlloc acc :=
      (List.range'_eq_map_range _ _).symm
    rw [h3, hmap, range'_block_append s.nextAlloc len acc hlen]

lemma robInv_retire {cap : Nat} {s : RobRing} (k : Nat) (h : RobInv cap s) :
    RobInv cap (RobRing.retire s k) := by
  obtain ⟨h1, len, hlen, h3⟩ := h
  unfold RobRing.retire
  refine ⟨?_, len - k, ?_, ?_⟩
  · simp only [List.length_drop]
    omega
  · show len - k ≤ s.nextAlloc
    omega
  · show s.entries.drop k = List.range' (s.nextAlloc - (len - k)) (len - k)
    rw [h3, drop_range'_eq]
    by_cases hk : k ≤ len
    · congr 1
      omega
    · have h0 : len - k = 0 := by omega
      rw [h0, List.range'_zero, List.range'_zero]

lemma robInv_run (cap : Nat) (ops : List (Nat × Nat)) :
    RobInv cap (robRun cap ops) := by
  have hgen : ∀ (s : RobRing), RobInv cap s →
      RobInv cap
        (ops.foldl (fun s op => (RobRing.allocate cap s op.1).retire op.2) s) := by
    induction ops with
    | nil => intro s hs; exact hs
    | cons op ops ih =>
      intro s hs
      exact ih _ (robInv_retire op.2 (robInv_allocate op.1 hs))
  exact hgen ⟨[], 0⟩ ⟨by simp, 0, le_refl 0, by simp⟩

lemma allocate_at_capacity {cap : Nat} {s : RobRing}
    (hfull : s.entries.length = cap) (inc : Nat) :
    RobRing.allocate cap s inc = s := by
  unfold RobRing.allocate
  have h1 : cap - s.entries.length = 0 := by omega
  rw [h1, Nat.min_zero]
  simp

lemma markCompleted_pairwise {rob : List RobEntry} (done : List Nat)
    (h : rob.Pairwise fun a b => a.idx < b.idx) :
    (markCompleted rob done).Pairwise fun a b => a.idx < b.idx := by
  unfold markCompleted
  rw [List.pairwise_map]
  exact h

lemma mem_markCompleted_idx {rob : List RobEntry} {done : List Nat}
    {e : RobEntry} (he : e ∈ markCompleted rob done) :
    ∃ e0 ∈ rob, e.idx = e0.idx := by
  obtain ⟨e0, he0, rfl⟩ := List.mem_map.mp he
  exact ⟨e0, he0, rfl⟩

lemma take_drop_cross {l : List RobEntry} (k : Nat)
    (h : l.Pairwise fun a b => a.idx < b.idx) :
    ∀ e ∈ l.take k, ∀ f ∈ l.drop k, e.idx < f.idx := by
  have h2 := h
  rw [← List.take_append_drop k l] at h2
  exact (List.pairwise_append.mp h2).2.2

lemma mem_take_takeWhile_le {p : RobEntry → Bool} {l : List RobEntry} {k : Nat}
    (hk : k ≤ (l.takeWhile p).length) : ∀ e ∈ l.take k, p e = true := by
  intro e he
  have hsplit : l.takeWhile p ++ l.dropWhile p = l :=
    List.takeWhile_append_dropWhile p l
  have htake : l.take k = (l.takeWhile p).take k := by
    conv_lhs => rw [← hsplit]
    rw [List.take_append_eq_append_take]
    have h0 : k - (l.takeWhile p).length = 0 := by omega
    rw [h0, List.take_zero, List.append_nil]
  rw [htake] at he
  exact List.mem_takeWhile_imp (List.take_subset k _ he)

lemma retireCycleStep_retired (cap : Nat) (done : List Nat) (s : RetireState)
    (hchan : s.chan = []) :
    (retireCycleStep cap done s).retired =
      s.retired ++
        ((markCompleted s.rob done).take (eligibleCount cap s done)).map
          fun e => (e.idx, s.cycle) := by
  simp only [retireCycleStep, hchan, List.nil_append, List.map_map]
  rfl

lemma retireInv_step (cap : Nat) (done : List Nat) {s : RetireState}
    (h : RetireInv s) : RetireInv (retireCycleStep cap done s) := by
  obtain ⟨hchan, hrob, hmono, hcyc, hcross⟩ := h
  have hrob1 := markCompleted_pairwise done hrob
  have hcross1 : ∀ p ∈ s.retired, ∀ e ∈ markCompleted s.rob done,
      p.1 < e.idx := by
    intro p hp e he
    obtain ⟨e0, he0, heq⟩ := mem_markCompleted_idx he
    rw [heq]
    exact hcross p hp e0 he0
  have hkcross := take_drop_cross (eligibleCount cap s done) hrob1
  refine ⟨rfl, List.Pairwise.sublist (List.drop_sublist _ _) hrob1, ?_, ?_, ?_⟩
  · intro p hp q hq hpq
    rw [retireCycleStep_retired cap done s hchan] at hp hq
    rcases List.mem_append.mp hp with hp' | hp' <;>
      rcases List.mem_append.mp hq with hq' | hq'
    · exact hmono p hp' q hq' hpq
    · obtain ⟨e, he, rfl⟩ := List.mem_map.mp hq'
      exact le_of_lt (hcyc p hp')
    · obtain ⟨e, he, rfl⟩ := List.mem_map.mp hp'
      have h1 : q.1 < e.idx := hcross1 q hq' e (List.take_subset _ _ he)
      have h2 : e.idx < q.1 := hpq
      omega
    · obtain ⟨e, he, rfl⟩ := List.mem_map.mp hp'
      obtain ⟨f, hf, rfl⟩ := List.mem_map.mp hq'
      exact le_refl _
  · intro p hp
    rw [retireCycleStep_retired cap done s hchan] at hp
    show p.2 < s.cycle + 1
    rcases List.mem_append.mp hp with hp' | hp'
    · have := hcyc p hp'
      omega
    · obtain ⟨e, he, rfl⟩ := List.mem_map.mp hp'
      show s.cycle < s.cycle + 1
      omega
  · intro p hp e' he'
    rw [retireCycleStep_retired cap done s hchan] at hp
    have he'' : e' ∈ (markCompleted s.rob done).drop (eligibleCount cap s done) :=
      he'
    rcases List.mem_append.mp hp with hp' | hp'
    · exact hcross1 p hp' e' (List.drop_subset _ _ he'')
    · obtain ⟨f, hf, rfl⟩ := List.mem_map.mp hp'
      show f.idx < e'.idx
      exact hkcross f hf e' he''

lemma retireInv_init (n : Nat) : RetireInv (initRetireState n) := by
  refine ⟨rfl, ?_, ?_, ?_, ?_⟩
  · show ((List.range n).map fun i =>
      ({ idx := i, completed := false } : RobEntry)).Pairwise
        fun a b => a.idx < b.idx
    rw [List.pairwise_map]
    exact List.pairwise_lt_range n
  · intro p hp
    cases hp
  · intro p hp
    cases hp
  · intro p hp
    cases hp

lemma retireInv_run (cap : Nat) (inputs : List (List Nat)) {s : RetireState}
    (h : RetireInv s) : RetireInv (retireRun cap inputs s) := by
  induction inputs generalizing s with
  | nil => exact h
  | cons d ds ih => exact ih (retireInv_step cap d h)

/-! ## Claim theorems -/

/-- C2: the writeback channel from the execution units into the reorder buffer
is built with the `kInfiniteCapacity` sentinel, so a push onto that channel
never fails and never rejects: the completed result is always appended to the
channel and the cyclic writeback edge cannot deadlock. -/
theorem c2_writeback_push_never_fails {α : Type} (b : LinkBuffer α) (x : α)
    (h : b.capacity = executedWritebackLinkCapacity) :
    ∃ b', b.push x = some b' ∧ b'.contents = b.contents ++ [x] ∧
      b'.capacity = b.capacity := by
  refine ⟨⟨b.capacity, b.contents ++ [x]⟩, ?_, rfl, rfl⟩
  simp [LinkBuffer.push, h, executedWritebackLinkCapacity]

theorem c2_writeback_push_never_fails_witness :
    (LinkBuffer.mk executedWritebackLinkCapacity ([] : List Nat)).capacity =
        executedWritebackLinkCapacity ∧
      ∃ b', (LinkBuffer.mk executedWritebackLinkCapacity ([] : List Nat)).push 0 =
          some b' ∧ b'.contents = [] ++ [0] ∧
        b'.capacity = executedWritebackLinkCapacity :=
  ⟨rfl, c2_writeback_push_never_fails _ 0 rfl⟩

/-- C9: when the output-path flag is the empty string, the tool terminates with
a fatal check failure immediately after flag parsing: it performs no core
pinning, no microarchitecture loading, no itinerary computation and writes no
output file. -/
theorem c9_empty_output_flag_is_fatal (f : ToolFlags)
    (h : f.exegesis_output_itineraries = "") :
    toolMain f = (ToolOutcome.fatalCheckFailure, []) := by
  have hE : f.exegesis_output_itineraries.isEmpty = true := by
    rw [h]
    rfl
  simp [toolMain, hE]

theorem c9_empty_output_flag_is_fatal_witness :
    toolMain ⟨"ADD", "", 5⟩ = (ToolOutcome.fatalCheckFailure, []) :=
  c9_empty_output_flag_is_fatal ⟨"ADD", "", 5⟩ rfl

/-- C8: when the mnemonic-selection flag is non-empty, the tool keeps exactly
the instructions and itineraries whose LLVM mnemonic is in the comma-separated
list, removing all others before computation; when the flag is empty, nothing
is removed. -/
theorem c8_mnemonic_filter (flag : String) (instrs : List InstructionProto)
    (itins : List ItineraryProto) :
    (flag ≠ "" →
      (∀ i, i ∈ (applyMnemonicFilter flag instrs itins).1 ↔
        i ∈ instrs ∧ (splitMnemonics flag).contains i.llvm_mnemonic = true) ∧
      (∀ t, t ∈ (applyMnemonicFilter flag instrs itins).2 ↔
        t ∈ itins ∧ (splitMnemonics flag).contains t.llvm_mnemonic = true)) ∧
    (flag = "" → applyMnemonicFilter flag instrs itins = (instrs, itins)) := by
  constructor
  · intro h
    have hne : flag.isEmpty = false := by
      cases hfe : flag.isEmpty
      · rfl
      · exact absurd ((String.isEmpty_iff flag).mp hfe) h
    constructor <;> intro x <;>
      simp [applyMnemonicFilter, hne, List.mem_filter]
  · intro h
    subst h
    have hT : ("" : String).isEmpty = true := rfl
    simp [applyMnemonicFilter, hT]

theorem c8_mnemonic_filter_witness :
    ("ADD,SUB" : String) ≠ "" ∧
      (InstructionProto.mk "ADD" ∈
          (applyMnemonicFilter "ADD,SUB" [⟨"ADD"⟩, ⟨"MUL"⟩] [⟨"SUB"⟩]).1 ↔
        InstructionProto.mk "ADD" ∈
            [InstructionProto.mk "ADD", InstructionProto.mk "MUL"] ∧
          (splitMnemonics "ADD,SUB").contains "ADD" = true) :=
  ⟨by decide,
    ((c8_mnemonic_filter "ADD,SUB" [⟨"ADD"⟩, ⟨"MUL"⟩] [⟨"SUB"⟩]).1
      (by decide)).1 ⟨"ADD"⟩⟩

/-- C10: the ReorderBuffer is wired with one single `ExecDepsTracker` buffer
serving both as the dependency sink it registers new entries with and as the
dependency source cleared on writeback, and exactly one such buffer exists in
the simulator, so readiness queries observe the same store used at
registration. -/
theorem c10_single_exec_deps_buffer (n : Nat) :
    (haswellROBWiring n).depsSink = (haswellROBWiring n).depsSource ∧
    (haswellROBWiring n).depsSink = BufferId.ExecDepsTracker ∧
    (haswellBuffers n).count BufferId.ExecDepsTracker = 1 := by
  refine ⟨rfl, rfl, ?_⟩
  have h2 : ((List.range n).map BufferId.PortBuf).count BufferId.ExecDepsTracker = 0 :=
    List.count_eq_zero.mpr (by simp)
  simp [haswellBuffers, List.count_append, h2]

/-- C5: the Haswell simulator adds its components in the fixed topological
order Fetcher, Parser, Decoder, RegisterRenamer, ReorderBuffer, per-port
ExecutionUnits, Retirer, and each cycle the driver loop visits every component
exactly once, in exactly that order. -/
theorem c5_component_step_order {σ : Type} (step : ComponentKind → σ → σ)
    (s : σ) (n : Nat) :
    (stepTrace step (haswellComponents n) s).2 = haswellComponents n ∧
    haswellComponents n =
      [ComponentKind.Fetcher, ComponentKind.InstructionParser,
       ComponentKind.InstructionDecoder, ComponentKind.RegisterRenamer,
       ComponentKind.ReorderBuffer]
      ++ (List.range n).map ComponentKind.SimplifiedExecutionUnits
      ++ [ComponentKind.Retirer] ∧
    ∀ c ∈ haswellComponents n, (haswellComponents n).count c = 1 := by
  refine ⟨?_, rfl, ?_⟩
  · simpa [stepTrace] using stepTrace_foldl step (haswellComponents n) s []
  · intro c hc
    exact List.count_eq_one_of_mem (haswellComponents_nodup n) hc

theorem c5_component_step_order_witness :
    ComponentKind.Fetcher ∈ haswellComponents 1 ∧
      (haswellComponents 1).count ComponentKind.Fetcher = 1 :=
  ⟨by decide,
    (c5_component_step_order (fun _ s => s) () 1).2.2 ComponentKind.Fetcher
      (by decide)⟩

/-- C6: for every processor resource with index at least 1 and no sub-units,
the Haswell simulator creates exactly one dispatch port whose unit capacity is
that resource's `NumUnits`, and it creates no port for index 0 or for
resources that have sub-units. -/
theorem c6_one_port_per_subunitless_resource (resources : List ProcResourceDesc) :
    (∀ i c, (i, c) ∈ createPorts resources ↔
      1 ≤ i ∧ ∃ r, resources[i]? = some r ∧ r.hasSubUnits = false ∧
        c = r.NumUnits) ∧
    ∀ i r, resources[i]? = some r → 1 ≤ i → r.hasSubUnits = false →
      ((createPorts resources).filter fun x => x = (i, r.NumUnits)).length = 1 := by
  refine ⟨fun i c => mem_createPorts, fun i r hr hi hs => ?_⟩
  exact length_filter_eq_one_of_nodup (createPorts_nodup resources)
    (mem_createPorts.mpr ⟨hi, r, hr, hs, rfl⟩)

/-- C1: in the modelled retirement pipeline, for any run and any two retired
instructions where A is older than B in program order, A's retirement cycle is
at most B's; moreover in every cycle the entries moved toward retirement are
all completed and older than everything left in the ROB, so eligibility never
skips ahead of an older, not-yet-completed entry despite out-of-order
completion. -/
theorem c1_program_order_retirement (cap n : Nat) (inputs : List (List Nat)) :
    (∀ iA cA iB cB,
        (iA, cA) ∈ (retireRun cap inputs (initRetireState n)).retired →
        (iB, cB) ∈ (retireRun cap inputs (initRetireState n)).retired →
        iA < iB → cA ≤ cB) ∧
    ∀ pre done rest, inputs = pre ++ done :: rest →
      (∀ e ∈ (markCompleted (retireRun cap pre (initRetireState n)).rob
            done).take
          (eligibleCount cap (retireRun cap pre (initRetireState n)) done),
        e.completed = true) ∧
      ∀ e ∈ (markCompleted (retireRun cap pre (initRetireState n)).rob
            done).take
          (eligibleCount cap (retireRun cap pre (initRetireState n)) done),
        ∀ f ∈ (retireCycleStep cap done
            (retireRun cap pre (initRetireState n))).rob,
          e.idx < f.idx := by
  constructor
  · intro iA cA iB cB hA hB hAB
    obtain ⟨-, -, hmono, -, -⟩ := retireInv_run cap inputs (retireInv_init n)
    exact hmono (iA, cA) hA (iB, cB) hB hAB
  · intro pre done rest hin
    obtain ⟨-, hrob, -, -, -⟩ := retireInv_run cap pre (retireInv_init n)
    have hrob1 := markCompleted_pairwise done hrob
    constructor
    · have hk : eligibleCount cap (retireRun cap pre (initRetireState n)) done ≤
          ((markCompleted (retireRun cap pre (initRetireState n)).rob
            done).takeWhile fun e => e.completed).length :=
        Nat.min_le_right _ _
      exact mem_take_takeWhile_le hk
    · intro e he f hf
      exact take_drop_cross _ hrob1 e he f hf

theorem c1_program_order_retirement_witness :
    ((0, 0) ∈ (retireRun 3 [[0, 1]] (initRetireState 2)).retired ∧
      (1, 0) ∈ (retireRun 3 [[0, 1]] (initRetireState 2)).retired) ∧
    (0 : Nat) ≤ 0 ∧
    (RobEntry.mk 0 true).completed = true :=
  ⟨⟨by decide, by decide⟩,
    (c1_program_order_retirement 3 2 [[0, 1]]).1 0 0 1 0 (by decide)
      (by decide) (by decide),
    ((c1_program_order_retirement 3 2 [[0, 1]]).2 [] [0, 1] [] rfl).1
      ⟨0, true⟩ (by decide)⟩

/-- C3: the Haswell reorder buffer is configured with 192 entries; in the
modelled allocation ring, after any sequence of per-cycle
(allocations, retirements), the occupied count never exceeds that capacity,
the live entries are exactly the contiguous block of the most recently
allocated and not-yet-retired program positions in FIFO order (so no entry is
reused before it is retired), and when the ring is full an allocation attempt
accepts nothing, stalling the upstream RegisterRenamer. -/
theorem c3_rob_ring_capacity (ops : List (Nat × Nat)) :
    haswellROBConfig.NumROBEntries = 192 ∧
    (robRun haswellROBConfig.NumROBEntries ops).entries.length ≤
      haswellROBConfig.NumROBEntries ∧
    (robRun haswellROBConfig.NumROBEntries ops).entries =
      List.range'
        ((robRun haswellROBConfig.NumROBEntries ops).nextAlloc -
          (robRun haswellROBConfig.NumROBEntries ops).entries.length)
        (robRun haswellROBConfig.NumROBEntries ops).entries.length ∧
    ∀ inc,
      (robRun haswellROBConfig.NumROBEntries ops).entries.length =
        haswellROBConfig.NumROBEntries →
      RobRing.allocate haswellROBConfig.NumROBEntries
          (robRun haswellROBConfig.NumROBEntries ops) inc =
        robRun haswellROBConfig.NumROBEntries ops := by
  obtain ⟨h1, len, hlen, h3⟩ :=
    robInv_run haswellROBConfig.NumROBEntries ops
  have hlen_eq : (robRun haswellROBConfig.NumROBEntries ops).entries.length =
      len := by
    rw [h3]
    simp
  refine ⟨rfl, h1, ?_, fun inc hfull => allocate_at_capacity hfull inc⟩
  rw [hlen_eq, h3]

set_option maxRecDepth 100000 in
theorem c3_rob_ring_capacity_witness :
    (robRun haswellROBConfig.NumROBEntries [(192, 0)]).entries.length =
        haswellROBConfig.NumROBEntries ∧
      RobRing.allocate haswellROBConfig.NumROBEntries
          (robRun haswellROBConfig.NumROBEntries [(192, 0)]) 5 =
        robRun haswellROBConfig.NumROBEntries [(192, 0)] :=
  ⟨by decide, (c3_rob_ring_capacity [(192, 0)]).2.2.2 5 (by decide)⟩

lemma leastLoadedStep_some (b c : Nat × Nat) :
    leastLoadedStep (some b) c =
      if b.1 < c.1 ∨ (b.1 = c.1 ∧ c.2 < b.2) then some c else some b := rfl

lemma leastLoadedPick_go (cands : List (Nat × Nat)) :
    ∀ b p : Nat × Nat, cands.foldl leastLoadedStep (some b) = some p →
      (p = b ∨ p ∈ cands) ∧
      ∀ q, q = b ∨ q ∈ cands → q.1 ≤ p.1 ∧ (q.1 = p.1 → p.2 ≤ q.2) := by
  induction cands with
  | nil =>
    intro b p h
    simp only [List.foldl_nil, Option.some.injEq] at h
    subst h
    refine ⟨Or.inl rfl, ?_⟩
    rintro q (rfl | hq)
    · exact ⟨le_refl _, fun _ => le_refl _⟩
    · cases hq
  | cons c cs ih =>
    intro b p h
    rw [List.foldl_cons, leastLoadedStep_some] at h
    by_cases hrepl : b.1 < c.1 ∨ (b.1 = c.1 ∧ c.2 < b.2)
    · rw [if_pos hrepl] at h
      obtain ⟨hp, hbound⟩ := ih c p h
      have hcb := hbound c (Or.inl rfl)
      refine ⟨?_, ?_⟩
      · rcases hp with rfl | hp
        · exact Or.inr (List.mem_cons_self _ _)
        · exact Or.inr (List.mem_cons_of_mem _ hp)
      · rintro q (rfl | hq)
        · rcases hrepl with hlt | ⟨heq, hlt2⟩
          · exact ⟨by omega, fun hqp => by omega⟩
          · refine ⟨by omega, fun hqp => ?_⟩
            have := hcb.2 (by omega)
            omega
        · rcases List.mem_cons.mp hq with rfl | hq'
          · exact hcb
          · exact hbound q (Or.inr hq')
    · rw [if_neg hrepl] at h
      obtain ⟨hp, hbound⟩ := ih b p h
      push_neg at hrepl
      have hbb := hbound b (Or.inl rfl)
      refine ⟨?_, ?_⟩
      · rcases hp with rfl | hp
        · exact Or.inl rfl
        · exact Or.inr (List.mem_cons_of_mem _ hp)
      · rintro q (rfl | hq)
        · exact hbb
        · rcases List.mem_cons.mp hq with rfl | hq'
          · refine ⟨by omega, fun hcp => ?_⟩
            have hbc : b.1 = q.1 := by omega
            have h1 := hrepl.2 hbc
            have h2 := hbb.2 (by omega)
            omega
          · exact hbound q (Or.inr hq')

/-- C4: the modelled `IssuePolicy::LeastLoaded` resolves port contention by
picking a candidate with the most free capacity, and among equally loaded
candidates one with the lowest (earliest) program-order position. -/
theorem c4_least_loaded_tie_break (cands : List (Nat × Nat)) (p : Nat × Nat)
    (h : leastLoadedPick cands = some p) :
    p ∈ cands ∧ ∀ q ∈ cands, q.1 ≤ p.1 ∧ (q.1 = p.1 → p.2 ≤ q.2) := by
  cases cands with
  | nil => simp [leastLoadedPick] at h
  | cons c cs =>
    rw [leastLoadedPick, List.foldl_cons] at h
    have hstep : leastLoadedStep none c = some c := rfl
    rw [hstep] at h
    obtain ⟨hp, hbound⟩ := leastLoadedPick_go cs c p h
    refine ⟨?_, ?_⟩
    · rcases hp with rfl | hp
      · exact List.mem_cons_self _ _
      · exact List.mem_cons_of_mem _ hp
    · intro q hq
      rcases List.mem_cons.mp hq with rfl | hq'
      · exact hbound q (Or.inl rfl)
      · exact hbound q (Or.inr hq')

theorem c4_least_loaded_tie_break_witness :
    (3, 0) ∈ [((2 : Nat), (5 : Nat)), (3, 1), (3, 0)] ∧
      ∀ q ∈ [((2 : Nat), (5 : Nat)), (3, 1), (3, 0)],
        q.1 ≤ 3 ∧ (q.1 = 3 → 0 ≤ q.2) :=
  c4_least_loaded_tie_break [(2, 5), (3, 1), (3, 0)] (3, 0) (by decide)

lemma eligibleCount_le_rob_length (cap : Nat) (s : RetireState)
    (done : List Nat) :
    eligibleCount cap s done ≤ (markCompleted s.rob done).length :=
  le_trans (Nat.min_le_right _ _)
    (List.takeWhile_sublist (fun e : RobEntry => e.completed)).length_le

/-- C7: the per-cycle retire bound comes from the construction: the
ready-to-retire link has capacity 3, the Retirer's config carries no width (all
its values are equal), the reorder buffer pushes at most 3 completed
program-order-prefix entries onto the channel per cycle, and the Retirer pops
exactly what is on the channel, hence at most 3 entries per cycle. -/
theorem c7_retire_bound_from_construction :
    uopsToRetireLinkCapacity = 3 ∧
    (∀ c c' : RetirerConfig, c = c') ∧
    ∀ (s : RetireState) (done : List Nat), s.chan = [] →
      eligibleCount uopsToRetireLinkCapacity s done ≤ 3 ∧
      (retireCycleStep uopsToRetireLinkCapacity done s).retired.length =
        s.retired.length + eligibleCount uopsToRetireLinkCapacity s done := by
  refine ⟨rfl, fun c c' => rfl, fun s done hchan => ⟨?_, ?_⟩⟩
  · have h1 : eligibleCount uopsToRetireLinkCapacity s done ≤
        uopsToRetireLinkCapacity - s.chan.length := Nat.min_le_left _ _
    rw [hchan] at h1
    simpa [uopsToRetireLinkCapacity] using h1
  · have hk := eligibleCount_le_rob_length uopsToRetireLinkCapacity s done
    simp only [retireCycleStep, hchan, List.nil_append, List.length_append,
      List.length_map, List.length_take]
    rw [Nat.min_eq_left hk]

theorem c7_retire_bound_from_construction_witness :
    (initRetireState 1).chan = [] ∧
      (eligibleCount uopsToRetireLinkCapacity (initRetireState 1) [0] ≤ 3 ∧
        (retireCycleStep uopsToRetireLinkCapacity [0]
            (initRetireState 1)).retired.length =
          (initRetireState 1).retired.length +
            eligibleCount uopsToRetireLinkCapacity (initRetireState 1) [0]) :=
  ⟨rfl, c7_retire_bound_from_construction.2.2 (initRetireState 1) [0] rfl⟩

theorem c6_one_port_per_subunitless_resource_witness :
    ([⟨4, false⟩, ⟨2, false⟩, ⟨3, true⟩] : List ProcResourceDesc)[1]? =
        some ⟨2, false⟩ ∧
      ((createPorts [⟨4, false⟩, ⟨2, false⟩, ⟨3, true⟩]).filter
        fun x => x = (1, 2)).length = 1 :=
  ⟨by decide,
    (c6_one_port_per_subunitless_resource [⟨4, false⟩, ⟨2, false⟩, ⟨3, true⟩]).2
      1 ⟨2, false⟩ (by decide) (by decide) rfl⟩

end Exegesis
